import Mathlib

/-!
# Verification of the clipforge pipeline core

A shallow embedding of the algorithmic core of the clipforge repository
(`clipforge/validate.py`, `clipforge/segment.py`, `clipforge/pipeline.py`)
with theorems checking the repository's specification against the code.

Conventions of the embedding:
* Python floats are modelled as rationals (`ℚ`); all arithmetic appearing in
  the embedded code (`+`, `-`, `/ 2`, comparisons, division by a duration) is
  exact on the modelled inputs.
* Python strings are modelled as `String` where only equality matters; the
  transcript text handled by the chunker is modelled as `List Char` so that
  length and `split("\n")` are transparent to the kernel.
* Fallible operations return `Except`/`Option`.
-/

/- Core marks the `Rat` arithmetic operations `@[irreducible]` purely for
elaborator performance; restoring the default reducibility (file-locally) lets
`decide`/`rfl` evaluate concrete rational arithmetic through the kernel.  This
changes no logical content. -/
set_option allowUnsafeReducibility true
attribute [local semireducible] Rat.sub Rat.add Rat.mul Rat.div Rat.neg Rat.inv

namespace ClipForge

/-! ## Data model (`clipforge/models.py`)

Field `end` of the source models is spelled `end_` because `end` is a Lean
keyword. Only fields read by the embedded core are retained where noted.
-/

structure TranscriptionWord where
  word : String
  start : ℚ
  end_ : ℚ
  confidence : ℚ
deriving DecidableEq, Repr

structure TranscriptionSegment where
  text : String
  start : ℚ
  end_ : ℚ
  words : List TranscriptionWord
  avg_confidence : ℚ
deriving DecidableEq, Repr

structure TranscriptionResult where
  segments : List TranscriptionSegment
  language : String
  full_text : String
  duration : ℚ
deriving DecidableEq, Repr

structure TopicSegment where
  title : String
  description : String
  start_time : ℚ
  end_time : ℚ
  key_quotes : List String
  confidence : ℚ
deriving DecidableEq, Repr

inductive ClipStatus where
  | approved
  | rejected
  | pending
deriving DecidableEq, Repr

structure ValidatedClip where
  index : ℤ
  title : String
  description : String
  start_time : ℚ
  end_time : ℚ
  duration : ℚ
  key_quotes : List String
  status : ClipStatus
deriving DecidableEq, Repr

/-- The fields of `PipelineConfig` (`clipforge/config.py`) consulted by the
embedded core. `min_clip_duration` and `max_clip_duration` are `int` in the
source. -/

structure PipelineConfig where
  min_clip_duration : ℤ
  max_clip_duration : ℤ
  resume : Bool
deriving DecidableEq, Repr

/-! ## Boundary index (`clipforge/validate.py`) -/

/-- Source constant `_SENTENCE_ENDINGS = frozenset(".!?")`. -/

def SENTENCE_ENDINGS : List Char := ['.', '!', '?']

/-- Python `str.strip()`: whitespace removed from both ends (modelled on the
character list of the string). -/

def pyStrip (w : String) : List Char :=
  ((w.toList.dropWhile Char.isWhitespace).reverse.dropWhile Char.isWhitespace).reverse

/-- The test `stripped and stripped[-1] in _SENTENCE_ENDINGS` applied to a
word, where `stripped = word.strip()`. -/

def isSentenceEnd (w : String) : Bool :=
  match (pyStrip w).getLast? with
  | some c => SENTENCE_ENDINGS.contains c
  | none => false

/-- Embeds `_build_sentence_boundaries`: the set `{0.0, duration}` together with the
end time of every word whose stripped text ends with a sentence terminator,
returned as `sorted(set(...))` — sorting after `dedup` yields exactly the
sorted list of the distinct collected values. -/

def build_sentence_boundaries (t : TranscriptionResult) : List ℚ :=
  let ends := (t.segments.flatMap (fun seg => seg.words)).filterMap
    (fun w => if isSentenceEnd w.word then some w.end_ else none)
  ((0 :: t.duration :: ends).dedup).mergeSort (fun a b => decide (a ≤ b))

/-- Models Python `bisect.bisect_left` on a sorted list: the length of the maximal prefix of
elements `< x`, i.e. the leftmost insertion point.  (The source only ever
calls it on the sorted `boundaries` list.) -/

def bisect_left (l : List ℚ) (x : ℚ) : Nat :=
  (l.takeWhile (fun b => decide (b < x))).length

/-- Embeds `_find_nearest_boundary`: boundary value closest to `time`; `boundaries[0]`
and `boundaries[-1]` are modelled with `getD` (in the source the accesses are
always in range). -/

def find_nearest_boundary (time : ℚ) (boundaries : List ℚ) : ℚ :=
  if boundaries.isEmpty then time
  else if bisect_left boundaries time = 0 then boundaries.getD 0 time
  else if bisect_left boundaries time = boundaries.length then
    boundaries.getD (boundaries.length - 1) time
  else if time - boundaries.getD (bisect_left boundaries time - 1) time ≤
      boundaries.getD (bisect_left boundaries time) time - time then
    boundaries.getD (bisect_left boundaries time - 1) time
  else boundaries.getD (bisect_left boundaries time) time

/-! ## Clip validation (`validate_clips`) -/

/-- One iteration of the proposal loop of `validate_clips`: snap both ends,
drop on collapse (`end <= start`), drop below `min_clip_duration`, truncate and
re-snap above `max_clip_duration` (falling back to the boundary before
`start + max_clip_duration` if the re-snap still exceeds the maximum).
Returns `none` for a skipped proposal. -/

def snapProposal (boundaries : List ℚ) (config : PipelineConfig)
    (seg : TopicSegment) : Option ValidatedClip :=
  let start := find_nearest_boundary seg.start_time boundaries
  let end1 := find_nearest_boundary seg.end_time boundaries
  if end1 ≤ start then none
  else
    let duration := end1 - start
    if duration < (config.min_clip_duration : ℚ) then none
    else
      let p :=
        if duration > (config.max_clip_duration : ℚ) then
          let raw_end := start + (config.max_clip_duration : ℚ)
          let e1 := find_nearest_boundary raw_end boundaries
          let e2 :=
            if e1 - start > (config.max_clip_duration : ℚ) then
              let idx := bisect_left boundaries raw_end
              if 0 < idx then boundaries.getD (idx - 1) e1 else e1
            else e1
          (e2, e2 - start)
        else (end1, duration)
      some { index := 0, title := seg.title, description := seg.description,
             start_time := start, end_time := p.1, duration := p.2,
             key_quotes := seg.key_quotes, status := ClipStatus.pending }

/-- The sort key `lambda c: c.start_time` of `clips.sort`. -/

def byClipStart (a b : ValidatedClip) : Bool :=
  decide (a.start_time ≤ b.start_time)

/-- The body of one iteration of the overlap-resolution loop of
`validate_clips` on the adjacent pair `(current, next_clip)`.  (The two
`_find_nearest_boundary(midpoint)` results computed by the source are
unconditionally overwritten before use and are omitted here.) -/

def resolvePair (boundaries : List ℚ) (current next_clip : ValidatedClip) :
    ValidatedClip × ValidatedClip :=
  if current.end_time > next_clip.start_time then
    let midpoint := (current.end_time + next_clip.start_time) / 2
    let mid_idx := bisect_left boundaries midpoint
    let p :=
      if 0 < mid_idx ∧ mid_idx < boundaries.length then
        (boundaries.getD (mid_idx - 1) 0, boundaries.getD mid_idx 0)
      else if mid_idx = 0 then
        (boundaries.getD 0 0, boundaries.getD 0 0)
      else
        (boundaries.getD (boundaries.length - 1) 0,
         boundaries.getD (boundaries.length - 1) 0)
    if p.1 > current.start_time ∧ p.2 < next_clip.end_time then
      ({ current with end_time := p.1, duration := p.1 - current.start_time },
       { next_clip with start_time := p.2, duration := next_clip.end_time - p.2 })
    else (current, next_clip)
  else (current, next_clip)

/-- The overlap-resolution loop `for i in range(len(clips) - 1)`: each
iteration reads `clips[i]` (possibly already updated by the previous
iteration) and `clips[i+1]`, so the updated second component is carried into
the next iteration. -/

def resolveLoop (boundaries : List ℚ) (current : ValidatedClip) :
    List ValidatedClip → List ValidatedClip
  | [] => [current]
  | next_clip :: rest =>
    let p := resolvePair boundaries current next_clip
    p.1 :: resolveLoop boundaries p.2 rest

def resolveOverlaps (boundaries : List ℚ) :
    List ValidatedClip → List ValidatedClip
  | [] => []
  | c :: rest => resolveLoop boundaries c rest

/-- Embeds the index-assignment loop: for each position i, `clips[i] = clip.model_copy(update=...)` with index `i + 1`. -/

def assignIndices (clips : List ValidatedClip) : List ValidatedClip :=
  clips.enum.map (fun p => { p.2 with index := (p.1 : ℤ) + 1 })

/-- Embeds `validate_clips`: snap/filter each proposal, sort by `start_time`, resolve
adjacent overlaps, assign sequential 1-based indices. -/

def validate_clips (segments : List TopicSegment)
    (transcription : TranscriptionResult) (config : PipelineConfig) :
    List ValidatedClip :=
  assignIndices
    (resolveOverlaps (build_sentence_boundaries transcription)
      ((segments.filterMap
          (snapProposal (build_sentence_boundaries transcription) config)).mergeSort
        byClipStart))

/-! ## Concrete inputs exhibiting the truncation defect of `validate_clips`

`tr0` has no sentence-ending words, so its boundary index is `[0, 100]`.
The proposal `seg0` spans `0–100`; with `max_clip_duration = 40` the
truncation candidate `start + 40 = 40` snaps back to the boundary `0`
(distance 40 versus 60), collapsing the clip to `0–0`, and no re-check
follows.  `tr1` additionally has a sentence boundary at `10`, so the same
truncation lands on `10` and yields a 10-second clip although
`min_clip_duration = 30`. -/

def tr0 : TranscriptionResult :=
  { segments := [], language := "en", full_text := "", duration := 100 }

def seg0 : TopicSegment :=
  { title := "Intro", description := "d", start_time := 0, end_time := 100,
    key_quotes := [], confidence := 9/10 }

def cfg0 : PipelineConfig :=
  { min_clip_duration := 30, max_clip_duration := 40, resume := false }

def tr1 : TranscriptionResult :=
  { segments :=
      [ { text := "Hello.", start := 0, end_ := 10,
          words := [ { word := "Hello.", start := 0, end_ := 10, confidence := 1 } ],
          avg_confidence := 1 } ],
    language := "en", full_text := "Hello.", duration := 100 }

/-! ## Segment merging (`clipforge/segment.py`) -/

/-- Embeds `_segments_overlap`: two segments overlap iff the overlapped duration
exceeds 50% of the shorter duration; a pair with shorter duration `≤ 0` is
non-overlapping. -/

def segments_overlap (a b : TopicSegment) : Bool :=
  if min (a.end_time - a.start_time) (b.end_time - b.start_time) ≤ 0 then false
  else
    decide (max 0 (min a.end_time b.end_time - max a.start_time b.start_time) /
      min (a.end_time - a.start_time) (b.end_time - b.start_time) > 1/2)

/-- The sort key `lambda s: s.start_time` of `sorted(all_segments, key=...)`. -/

def byStartTime (a b : TopicSegment) : Bool :=
  decide (a.start_time ≤ b.start_time)

/-- The sweep loop of `_merge_segments`: `last` is `merged[-1]`; an
overlapping next proposal replaces it exactly when its confidence is strictly
greater, otherwise it is discarded; a non-overlapping proposal is appended. -/

def mergeGo (last : TopicSegment) : List TopicSegment → List TopicSegment
  | [] => [last]
  | seg :: rest =>
    if segments_overlap last seg then
      if seg.confidence > last.confidence then mergeGo seg rest
      else mergeGo last rest
    else last :: mergeGo seg rest

/-- Embeds `_merge_segments`: sort by `start_time` (Python's stable sort), then sweep
left-to-right keeping a running last-accepted proposal. -/

def merge_segments (all_segments : List TopicSegment) : List TopicSegment :=
  match all_segments.mergeSort byStartTime with
  | [] => []
  | x :: rest => mergeGo x rest

/-! ## Bounded-retry segmentation call (`_call_ollama`) -/

/-- Source constant `MAX_RETRIES = 3`. -/

def MAX_RETRIES : ℕ := 3

/-- A raised `SegmentationError`: its message and the wrapped cause
(`raise ... from exc`). -/

structure SegmentationError where
  message : String
  cause : Option String
deriving DecidableEq, Repr

/-- The error raised when the final attempt fails:
`SegmentationError(f"Failed to parse LLM response after {MAX_RETRIES} attempts: {exc}") from exc`. -/

def segmentationFailure (exc : String) : SegmentationError :=
  { message := "Failed to parse LLM response after " ++ toString MAX_RETRIES ++
      " attempts: " ++ exc,
    cause := some exc }

/-- The retry loop of `_call_ollama` (`for attempt in range(1, MAX_RETRIES + 1)`).
`oracle n` is the combined outcome of attempt `n`: the transport call plus the
structural parse, `Except.error` carrying the exception text.  The second
component counts the attempts actually made, so that the bound on attempts is
expressible. -/

def call_ollama_loop (oracle : ℕ → Except String (List TopicSegment)) :
    List ℕ → Except SegmentationError (List TopicSegment) × ℕ
  | [] => (Except.error { message := "Exhausted retries without result", cause := none }, 0)
  | attempt :: rest =>
    match oracle attempt with
    | Except.ok topics => (Except.ok topics, 1)
    | Except.error exc =>
      if attempt = MAX_RETRIES then (Except.error (segmentationFailure exc), 1)
      else
        ((call_ollama_loop oracle rest).1, (call_ollama_loop oracle rest).2 + 1)

/-- Embeds `_call_ollama`: the result of running the retry loop over attempts 1..3. -/

def call_ollama (oracle : ℕ → Except String (List TopicSegment)) :
    Except SegmentationError (List TopicSegment) :=
  (call_ollama_loop oracle (List.range' 1 MAX_RETRIES)).1

/-- The number of attempts `_call_ollama` makes (instrumentation of the same
loop). -/

def call_ollama_attempts (oracle : ℕ → Except String (List TopicSegment)) : ℕ :=
  (call_ollama_loop oracle (List.range' 1 MAX_RETRIES)).2

/-! ## Checkpoint store (`clipforge/pipeline.py`) -/

inductive Stage where
  | audio
  | transcribe
  | segment
  | validate
  | review
  | extract
  | manifest
deriving DecidableEq, Repr

/-- The on-disk state of one stage's checkpoint file: `parses d` models text
accepted by `json.loads`, with `d` the value of `raw.get("data")` (`none` when
the `"data"` key is missing or null); `malformed` models text rejected by
`json.loads`. -/

inductive CheckpointFileState (P : Type) where
  | parses (dataField : Option P)
  | malformed

/-- The `json.JSONDecodeError` raised by `json.loads` on malformed text. -/

inductive JsonDecodeFailure where
  | decodeError
deriving DecidableEq, Repr

/-- Embeds `Pipeline._load_checkpoint`: return `None` when the checkpoint file does
not exist; otherwise `json.loads` the text — an exception from a malformed
file propagates uncaught — and return `raw.get("data")`. -/

def load_checkpoint {P : Type} (fs : Stage → Option (CheckpointFileState P))
    (stage : Stage) : Except JsonDecodeFailure (Option P) :=
  match fs stage with
  | none => Except.ok none
  | some (CheckpointFileState.parses d) => Except.ok d
  | some CheckpointFileState.malformed => Except.error JsonDecodeFailure.decodeError

/-- Embeds `Pipeline._should_skip`: `False` without resume; with resume, whether
`_load_checkpoint` returned a non-`None` payload (its exception propagates). -/

def should_skip {P : Type} (resume : Bool)
    (fs : Stage → Option (CheckpointFileState P)) (stage : Stage) :
    Except JsonDecodeFailure Bool :=
  if resume = false then Except.ok false
  else
    match load_checkpoint fs stage with
    | Except.ok d => Except.ok d.isSome
    | Except.error e => Except.error e

/-! ## Transcript chunking (`_chunk_transcript`)

The rendered transcript string is modelled as its character list, so Python's
`len` and `split("\n")` are transparent list operations. -/

/-- Source constant `MAX_CONTEXT_CHARS = 24000`. -/

def MAX_CONTEXT_CHARS : ℕ := 24000

/-- Source constant `CHUNK_SIZE = 20000`. -/

def CHUNK_SIZE : ℕ := 20000

/-- Source constant `CHUNK_OVERLAP = 2000`. -/

def CHUNK_OVERLAP : ℕ := 2000

/-- Python `formatted.split("\n")`: always returns at least one (possibly
empty) line. -/

def splitLines : List Char → List (List Char)
  | [] => [[]]
  | c :: rest =>
    if c = '\n' then [] :: splitLines rest
    else
      match splitLines rest with
      | [] => [[c]]
      | l :: ls => (c :: l) :: ls

/-- The inner accumulation loop of `_chunk_transcript`: how many further
lines fit while `char_count + len(lines[end_idx]) + 1 <= CHUNK_SIZE`. -/

def greedyTake (char_count : ℕ) : List (List Char) → ℕ
  | [] => 0
  | line :: rest =>
    if char_count + line.length + 1 ≤ CHUNK_SIZE then
      1 + greedyTake (char_count + line.length + 1) rest
    else 0

/-- Computes `end_idx` for the window starting at `start_idx`: greedy accumulation,
forcing at least one line when none fits (`if end_idx == start_idx`). -/

def chunkEnd (lines : List (List Char)) (start_idx : ℕ) : ℕ :=
  if start_idx + greedyTake 0 (lines.drop start_idx) = start_idx then start_idx + 1
  else start_idx + greedyTake 0 (lines.drop start_idx)

/-- The overlap walk-back: starting from `pos = end_idx`, step backwards while
`overlap_start > start_idx and overlap_chars < CHUNK_OVERLAP`, accumulating
`len(lines[overlap_start]) + 1` per step. -/

def overlapStepBack (lines : List (List Char)) (start_idx : ℕ) (pos chars : ℕ) : ℕ :=
  if h : start_idx < pos ∧ chars < CHUNK_OVERLAP then
    overlapStepBack lines start_idx (pos - 1) (chars + ((lines.getD (pos - 1) []).length + 1))
  else pos
termination_by pos
decreasing_by omega

/-- The advance `start_idx = max(overlap_start, start_idx + 1)`. -/

def nextStart (lines : List (List Char)) (start_idx : ℕ) : ℕ :=
  max (overlapStepBack lines start_idx (chunkEnd lines start_idx) 0) (start_idx + 1)

/-- The outer `while start_idx < len(lines)` loop of `_chunk_transcript`: the
emitted `[start_idx, end_idx)` line windows. -/

def chunkLoop (lines : List (List Char)) (start_idx : ℕ) : List (ℕ × ℕ) :=
  if _h : start_idx < lines.length then
    (start_idx, chunkEnd lines start_idx) :: chunkLoop lines (nextStart lines start_idx)
  else []
termination_by lines.length - start_idx
decreasing_by
  have h1 : start_idx + 1 ≤ nextStart lines start_idx := le_max_right _ _
  omega

/-- Natural value of a digit list. -/

def digitsNat (cs : List Char) : ℕ :=
  cs.foldl (fun a c => 10 * a + (c.toNat - 48)) 0

/-- Python `float()` on the plain decimal literals the `[{int(seg.start)}s]`
line format produces: optional sign, integer part, optional `.` fractional
part.  Other accepted forms of `float()` (exponents, whitespace, inf/nan) are
modelled as unparseable; the caller maps failures to `0.0` and the formatter
never emits those forms. -/

def parseFloatCore (cs : List Char) : Option ℚ :=
  match cs.dropWhile Char.isDigit with
  | [] =>
    if cs.takeWhile Char.isDigit = [] then none
    else some (digitsNat (cs.takeWhile Char.isDigit) : ℚ)
  | '.' :: frac =>
    if frac.all Char.isDigit ∧ (cs.takeWhile Char.isDigit ≠ [] ∨ frac ≠ []) then
      some ((digitsNat (cs.takeWhile Char.isDigit) : ℚ) +
        (digitsNat frac : ℚ) / ((10 : ℚ) ^ frac.length))
    else none
  | _ => none

def parseFloatQ (cs : List Char) : Option ℚ :=
  match cs with
  | '-' :: rest => (parseFloatCore rest).map (fun q => -q)
  | '+' :: rest => parseFloatCore rest
  | _ => parseFloatCore cs

/-- Embeds `_parse_line_time`: `line.split("]")[0].lstrip("[").rstrip("s")` then
`float(...)`, and `0.0` when that fails. -/

def parse_line_time (line : List Char) : ℚ :=
  match parseFloatQ
    ((((line.takeWhile (fun c => c ≠ ']')).dropWhile
      (fun c => c = '[')).reverse.dropWhile (fun c => c = 's')).reverse) with
  | some q => q
  | none => 0

/-- Assemble an emitted window into
`("\n".join(lines[start_idx:end_idx]), _parse_line_time(lines[start_idx]))`. -/

def joinChunk (lines : List (List Char)) (w : ℕ × ℕ) : List Char × ℚ :=
  (List.intercalate ['\n'] ((lines.drop w.1).take (w.2 - w.1)),
   parse_line_time (lines.getD w.1 []))

/-- Embeds `_chunk_transcript`: a transcript at or below `MAX_CONTEXT_CHARS` is one
chunk with offset `0.0`; otherwise the loop's windows are rendered into
`(chunk_text, chunk_offset)` pairs. -/

def chunk_transcript (formatted : List Char) : List (List Char × ℚ) :=
  if formatted.length ≤ MAX_CONTEXT_CHARS then [(formatted, 0)]
  else (chunkLoop (splitLines formatted) 0).map (joinChunk (splitLines formatted))

/-- The line-index windows underlying `chunk_transcript` (the single chunk of
the short branch covers the whole line range). -/

def chunk_windows (formatted : List Char) : List (ℕ × ℕ) :=
  if formatted.length ≤ MAX_CONTEXT_CHARS then [(0, (splitLines formatted).length)]
  else chunkLoop (splitLines formatted) 0

/-! # Theorems -/

/-! ## Helper: rewriting `List.mergeSort` on concrete rational lists

`List.mergeSort` is defined by well-founded recursion and does not reduce in
the kernel, so concrete sorts are rewritten through the uniqueness of the
sorted permutation. -/

theorem mergeSort_rat_eq (l l' : List ℚ) (hp : l.Perm l')
    (hs : l'.Pairwise (fun a b => (decide (a ≤ b)) = true)) :
    l.mergeSort (fun a b => decide (a ≤ b)) = l' := by
  refine List.eq_of_perm_of_sorted ((List.mergeSort_perm _ _).trans hp) ?_ hs
  exact List.sorted_mergeSort (fun a b c hab hbc => by simp_all; linarith)
    (fun a b => by simp [Bool.or_eq_true, decide_eq_true_eq]; exact le_total a b) _

/-- C1: the spec claims every clip returned by `validate_clips` satisfies
`start_time < end_time` (with sequential 1-based indices).  Evaluating the
code at the failing input: the proposal `0–100` with boundaries `[0, 100]`
and `max_clip_duration = 40` is truncated to the clip `0–0`, which is
returned (with index 1) and violates `start_time < end_time`. -/

theorem validate_clips_start_lt_end_violated :
    validate_clips [seg0] tr0 cfg0 =
      [{ index := 1, title := "Intro", description := "d", start_time := 0,
         end_time := 0, duration := 0, key_quotes := [],
         status := ClipStatus.pending }] ∧
    ∃ c ∈ validate_clips [seg0] tr0 cfg0, ¬ c.start_time < c.end_time := by
  have hb : build_sentence_boundaries tr0 = [0, 100] :=
    mergeSort_rat_eq _ _ (by decide) (by decide)
  have h : validate_clips [seg0] tr0 cfg0 =
      [{ index := 1, title := "Intro", description := "d", start_time := 0,
         end_time := 0, duration := 0, key_quotes := [],
         status := ClipStatus.pending }] := by
    unfold validate_clips
    rw [hb]
    have hf : [seg0].filterMap (snapProposal [0, 100] cfg0) =
        [{ index := 0, title := "Intro", description := "d", start_time := 0,
           end_time := 0, duration := 0, key_quotes := [],
           status := ClipStatus.pending }] := by decide
    rw [hf, List.mergeSort_singleton]
    decide
  exact ⟨h, by rw [h]; decide⟩

/-- C2: the spec claims `min_clip_duration ≤ duration ≤ max_clip_duration`
for every returned clip.  Evaluating the code at the failing input: the
proposal `0–100` with boundaries `[0, 10, 100]` and bounds `min = 30`,
`max = 40` is truncated to the clip `0–10`, which is returned with
`duration = 10 < 30`. -/

theorem validate_clips_min_duration_violated :
    validate_clips [seg0] tr1 cfg0 =
      [{ index := 1, title := "Intro", description := "d", start_time := 0,
         end_time := 10, duration := 10, key_quotes := [],
         status := ClipStatus.pending }] ∧
    ∃ c ∈ validate_clips [seg0] tr1 cfg0,
      c.duration < (cfg0.min_clip_duration : ℚ) := by
  have hb : build_sentence_boundaries tr1 = [0, 10, 100] :=
    mergeSort_rat_eq _ _ (by decide) (by decide)
  have h : validate_clips [seg0] tr1 cfg0 =
      [{ index := 1, title := "Intro", description := "d", start_time := 0,
         end_time := 10, duration := 10, key_quotes := [],
         status := ClipStatus.pending }] := by
    unfold validate_clips
    rw [hb]
    have hf : [seg0].filterMap (snapProposal [0, 10, 100] cfg0) =
        [{ index := 0, title := "Intro", description := "d", start_time := 0,
           end_time := 10, duration := 10, key_quotes := [],
           status := ClipStatus.pending }] := by decide
    rw [hf, List.mergeSort_singleton]
    decide
  exact ⟨h, by rw [h]; decide⟩

theorem segments_overlap_comm (a b : TopicSegment) :
    segments_overlap a b = segments_overlap b a := by
  simp only [segments_overlap]
  rw [min_comm a.end_time, max_comm a.start_time,
    min_comm (a.end_time - a.start_time)]

theorem mergeGo_no_overlap (x : TopicSegment) (rest : List TopicSegment)
    (h : (x :: rest).Pairwise (fun a b => segments_overlap a b = false)) :
    mergeGo x rest = x :: rest := by
  induction rest generalizing x with
  | nil => rfl
  | cons y ys ih =>
    rcases List.pairwise_cons.mp h with ⟨hx, hrest⟩
    have hxy : segments_overlap x y = false := hx y (List.mem_cons_self y ys)
    simp only [mergeGo, hxy, Bool.false_eq_true, if_false]
    exact congrArg (x :: ·) (ih y hrest)

/-- C6: merging A(0–60, conf 0.9), B(20–80, conf 0.8), C(100–150, conf 0.7)
yields exactly [A, C]: B overlaps A by 40 of the shorter duration 60
(ratio > 50%) and has lower confidence, so it is discarded; C does not
overlap and is kept. -/

theorem merge_overlap_resolution :
    merge_segments
      [{ title := "A", description := "", start_time := 0, end_time := 60,
         key_quotes := [], confidence := 9/10 },
       { title := "B", description := "", start_time := 20, end_time := 80,
         key_quotes := [], confidence := 8/10 },
       { title := "C", description := "", start_time := 100, end_time := 150,
         key_quotes := [], confidence := 7/10 }] =
      [{ title := "A", description := "", start_time := 0, end_time := 60,
         key_quotes := [], confidence := 9/10 },
       { title := "C", description := "", start_time := 100, end_time := 150,
         key_quotes := [], confidence := 7/10 }] := by
  unfold merge_segments
  rw [List.mergeSort_of_sorted (by decide)]
  decide

/-- C9: on input with no pairwise overlap above the 50% threshold,
`_merge_segments` keeps every proposal unchanged and merely sorts by
`start_time`: the output is exactly the stable sort of the input, hence has
the same length, is a permutation of the input, and is sorted. -/

theorem merge_segments_nonoverlapping (l : List TopicSegment)
    (h : l.Pairwise (fun a b => segments_overlap a b = false)) :
    merge_segments l = l.mergeSort byStartTime ∧
    (merge_segments l).length = l.length ∧
    (merge_segments l).Perm l ∧
    (merge_segments l).Pairwise (fun a b => a.start_time ≤ b.start_time) := by
  have hperm := List.mergeSort_perm l byStartTime
  have hpair : (l.mergeSort byStartTime).Pairwise
      (fun a b => segments_overlap a b = false) := by
    refine (List.Perm.pairwise_iff ?_ hperm).mpr h
    intro a b hab
    rw [segments_overlap_comm]
    exact hab
  have heq : merge_segments l = l.mergeSort byStartTime := by
    rcases hm : l.mergeSort byStartTime with _ | ⟨x, rest⟩
    · simp [merge_segments, hm]
    · simp only [merge_segments, hm]
      exact mergeGo_no_overlap x rest (hm ▸ hpair)
  refine ⟨heq, ?_, ?_, ?_⟩
  · rw [heq]
    exact List.length_mergeSort l
  · rw [heq]
    exact hperm
  · rw [heq]
    have hs := @List.sorted_mergeSort TopicSegment byStartTime
      (fun a b c hab hbc => by
        simp only [byStartTime, decide_eq_true_eq] at *
        linarith)
      (fun a b => by
        simp only [byStartTime, Bool.or_eq_true, decide_eq_true_eq]
        exact le_total _ _) l
    exact hs.imp (fun hab => by
      simpa only [byStartTime, decide_eq_true_eq] using hab)

/-- Closed instance of `merge_segments_nonoverlapping` at a concrete
two-element non-overlapping input. -/

theorem merge_segments_nonoverlapping_witness :
    merge_segments
      [{ title := "P", description := "", start_time := 0, end_time := 60,
         key_quotes := [], confidence := 1/2 },
       { title := "Q", description := "", start_time := 100, end_time := 150,
         key_quotes := [], confidence := 1/2 }] =
      ([{ title := "P", description := "", start_time := 0, end_time := 60,
          key_quotes := [], confidence := 1/2 },
        { title := "Q", description := "", start_time := 100, end_time := 150,
          key_quotes := [], confidence := 1/2 }].mergeSort byStartTime) ∧
    (merge_segments
      [{ title := "P", description := "", start_time := 0, end_time := 60,
         key_quotes := [], confidence := 1/2 },
       { title := "Q", description := "", start_time := 100, end_time := 150,
         key_quotes := [], confidence := 1/2 }]).length = 2 ∧
    (merge_segments
      [{ title := "P", description := "", start_time := 0, end_time := 60,
         key_quotes := [], confidence := 1/2 },
       { title := "Q", description := "", start_time := 100, end_time := 150,
         key_quotes := [], confidence := 1/2 }]).Perm
      [{ title := "P", description := "", start_time := 0, end_time := 60,
         key_quotes := [], confidence := 1/2 },
       { title := "Q", description := "", start_time := 100, end_time := 150,
         key_quotes := [], confidence := 1/2 }] ∧
    (merge_segments
      [{ title := "P", description := "", start_time := 0, end_time := 60,
         key_quotes := [], confidence := 1/2 },
       { title := "Q", description := "", start_time := 100, end_time := 150,
         key_quotes := [], confidence := 1/2 }]).Pairwise
      (fun a b => a.start_time ≤ b.start_time) :=
  merge_segments_nonoverlapping _ (by decide)

/-- C10: in the merge sweep, an overlapping next proposal replaces the last
accepted proposal only when its confidence is strictly greater; at equal (or
lower) confidence the earlier-accepted proposal is kept and the next one is
discarded. -/

theorem mergeGo_replace_only_on_strict_confidence (last seg : TopicSegment)
    (rest : List TopicSegment) :
    (segments_overlap last seg = true → seg.confidence = last.confidence →
      mergeGo last (seg :: rest) = mergeGo last rest)
  ∧ (segments_overlap last seg = true → seg.confidence ≤ last.confidence →
      mergeGo last (seg :: rest) = mergeGo last rest)
  ∧ (segments_overlap last seg = true → last.confidence < seg.confidence →
      mergeGo last (seg :: rest) = mergeGo seg rest) := by
  refine ⟨fun h1 h2 => ?_, fun h1 h2 => ?_, fun h1 h2 => ?_⟩ <;>
    simp only [mergeGo, h1, if_true, gt_iff_lt]
  · rw [if_neg (by rw [h2]; exact lt_irrefl _)]
  · rw [if_neg (not_lt.mpr h2)]
  · rw [if_pos h2]

/-- Closed instance of `mergeGo_replace_only_on_strict_confidence`: an
overlapping pair with equal confidence keeps the earlier proposal. -/

theorem mergeGo_equal_confidence_witness :
    mergeGo
      { title := "R", description := "", start_time := 0, end_time := 60,
        key_quotes := [], confidence := 1/2 }
      [{ title := "S", description := "", start_time := 20, end_time := 80,
         key_quotes := [], confidence := 1/2 }] =
    mergeGo
      { title := "R", description := "", start_time := 0, end_time := 60,
        key_quotes := [], confidence := 1/2 } [] :=
  (mergeGo_replace_only_on_strict_confidence _ _ _).1 (by decide) (by decide)

/-- C5: at most 3 attempts are made; if attempt `k ≤ 3` succeeds (after `k-1`
failures) its parsed proposals are returned and exactly `k` attempts are made
(no further attempts); if all 3 attempts fail, the raised `SegmentationError`
carries the last failure's cause. -/

theorem call_ollama_retry_spec (oracle : ℕ → Except String (List TopicSegment)) :
    call_ollama_attempts oracle ≤ MAX_RETRIES
  ∧ (∀ k topics, 1 ≤ k → k ≤ MAX_RETRIES → oracle k = Except.ok topics →
      (∀ j, 1 ≤ j → j < k → ∃ e, oracle j = Except.error e) →
      call_ollama oracle = Except.ok topics ∧ call_ollama_attempts oracle = k)
  ∧ (∀ e1 e2 e3, oracle 1 = Except.error e1 → oracle 2 = Except.error e2 →
      oracle 3 = Except.error e3 →
      call_ollama oracle = Except.error (segmentationFailure e3)) := by
  have hr : List.range' 1 MAX_RETRIES = [1, 2, 3] := rfl
  refine ⟨?_, ?_, ?_⟩
  · unfold call_ollama_attempts
    rw [hr]
    rcases h1 : oracle 1 with e1 | t1
    · rcases h2 : oracle 2 with e2 | t2
      · rcases h3 : oracle 3 with e3 | t3 <;>
          simp [call_ollama_loop, h1, h2, h3, MAX_RETRIES]
      · simp [call_ollama_loop, h1, h2, MAX_RETRIES]
    · simp [call_ollama_loop, h1, MAX_RETRIES]
  · intro k topics hk1 hk3 hok hprev
    unfold call_ollama call_ollama_attempts
    rw [hr]
    have hk3' : k ≤ 3 := hk3
    interval_cases k
    · simp [call_ollama_loop, hok, MAX_RETRIES]
    · obtain ⟨e1, he1⟩ := hprev 1 (le_refl 1) (by omega)
      simp [call_ollama_loop, he1, hok, MAX_RETRIES]
    · obtain ⟨e1, he1⟩ := hprev 1 (le_refl 1) (by omega)
      obtain ⟨e2, he2⟩ := hprev 2 (by omega) (by omega)
      simp [call_ollama_loop, he1, he2, hok, MAX_RETRIES]
  · intro e1 e2 e3 h1 h2 h3
    unfold call_ollama
    rw [hr]
    simp [call_ollama_loop, h1, h2, h3, MAX_RETRIES]

/-- Closed instance of `call_ollama_retry_spec`: an oracle failing on
attempts 1 and 2 and succeeding on attempt 3 returns the third attempt's
result after exactly 3 attempts. -/

theorem call_ollama_retry_witness :
    call_ollama (fun n => if n = 3 then Except.ok [] else Except.error "boom")
      = Except.ok [] ∧
    call_ollama_attempts (fun n => if n = 3 then Except.ok [] else Except.error "boom")
      = 3 :=
  (call_ollama_retry_spec _).2.1 3 [] (by decide) (by decide) (by rfl)
    (fun j hj1 hjk => ⟨"boom", by interval_cases j <;> rfl⟩)

/-- C3 counterexample: a checkpoint file that exists but fails to parse as
JSON makes `_load_checkpoint` propagate the decode error instead of returning
the distinguished absent result, refuting the claim that a malformed file is
treated as absent. -/

theorem load_checkpoint_malformed_not_absent :
    load_checkpoint (fun _ => some (CheckpointFileState.malformed : CheckpointFileState Unit))
        Stage.segment = Except.error JsonDecodeFailure.decodeError ∧
    load_checkpoint (fun _ => some (CheckpointFileState.malformed : CheckpointFileState Unit))
        Stage.segment ≠ Except.ok none :=
  ⟨rfl, fun h => Except.noConfusion h⟩

/-- C3 amended: a missing checkpoint file is treated as absent (`None`) and
absence is not an error; a file that parses cleanly yields its `data` field
(absent when the field is missing or null); a file that exists but fails to
parse raises a JSON decode error that propagates (aborting the resume check)
rather than being treated as absent. -/

theorem load_checkpoint_spec {P : Type}
    (fs : Stage → Option (CheckpointFileState P)) (stage : Stage) :
    (fs stage = none → load_checkpoint fs stage = Except.ok none)
  ∧ (∀ d, fs stage = some (CheckpointFileState.parses d) →
      load_checkpoint fs stage = Except.ok d)
  ∧ (fs stage = some CheckpointFileState.malformed →
      load_checkpoint fs stage = Except.error JsonDecodeFailure.decodeError) := by
  refine ⟨fun h => ?_, fun d h => ?_, fun h => ?_⟩ <;> simp [load_checkpoint, h]

/-- Closed instance of `load_checkpoint_spec`: with no checkpoint file the
load returns the absent result, not an error. -/

theorem load_checkpoint_spec_witness :
    load_checkpoint (fun _ => (none : Option (CheckpointFileState Unit)))
      Stage.audio = Except.ok none :=
  (load_checkpoint_spec _ Stage.audio).1 rfl

theorem splitLines_ne_nil (cs : List Char) : splitLines cs ≠ [] := by
  induction cs with
  | nil => simp [splitLines]
  | cons c rest ih =>
    simp only [splitLines]
    split
    · simp
    · rcases h : splitLines rest with _ | ⟨l, ls⟩ <;> simp

theorem le_chunkEnd (lines : List (List Char)) (s : ℕ) : s + 1 ≤ chunkEnd lines s := by
  unfold chunkEnd
  split
  · omega
  · next h => omega

theorem overlapStepBack_le (lines : List (List Char)) (s : ℕ) :
    ∀ pos chars, overlapStepBack lines s pos chars ≤ pos := by
  intro pos
  induction pos using Nat.strong_induction_on with
  | _ pos ih =>
    intro chars
    unfold overlapStepBack
    split
    · next h => exact le_trans (ih (pos - 1) (by omega) _) (by omega)
    · exact le_refl pos

theorem le_nextStart (lines : List (List Char)) (s : ℕ) :
    s + 1 ≤ nextStart lines s :=
  le_max_right _ _

theorem nextStart_le_chunkEnd (lines : List (List Char)) (s : ℕ) :
    nextStart lines s ≤ chunkEnd lines s :=
  max_le (overlapStepBack_le lines s _ 0) (le_chunkEnd lines s)

theorem chunkLoop_covers (lines : List (List Char)) :
    ∀ n start i, lines.length - start ≤ n → start ≤ i → i < lines.length →
      ∃ w ∈ chunkLoop lines start, w.1 ≤ i ∧ i < w.2 := by
  intro n
  induction n with
  | zero =>
    intro start i h hsi hil
    exact absurd hil (by omega)
  | succ n ih =>
    intro start i h hsi hil
    rw [chunkLoop, dif_pos (by omega)]
    by_cases hc : i < chunkEnd lines start
    · exact ⟨(start, chunkEnd lines start), List.mem_cons_self _ _, hsi, hc⟩
    · have h1 := le_nextStart lines start
      have h2 := nextStart_le_chunkEnd lines start
      obtain ⟨w, hw, hw1, hw2⟩ := ih (nextStart lines start) i (by omega) (by omega) hil
      exact ⟨w, List.mem_cons_of_mem _ hw, hw1, hw2⟩

theorem chunkLoop_length (lines : List (List Char)) :
    ∀ n start, lines.length - start ≤ n →
      (chunkLoop lines start).length ≤ lines.length - start := by
  intro n
  induction n with
  | zero =>
    intro start h
    rw [chunkLoop, dif_neg (by omega)]
    simp
  | succ n ih =>
    intro start h
    by_cases hs : start < lines.length
    · rw [chunkLoop, dif_pos hs]
      have h1 := le_nextStart lines start
      have h2 := ih (nextStart lines start) (by omega)
      simp only [List.length_cons]
      omega
    · rw [chunkLoop, dif_neg hs]
      simp

/-- C7: chunking is covering — every line index of the rendered transcript
falls in at least one emitted window — and an input at or below
`MAX_CONTEXT_CHARS` yields exactly one chunk, the whole transcript with
offset 0; in the long case the returned chunks are exactly the windows'
line ranges joined with newlines. -/

theorem chunk_transcript_coverage (formatted : List Char) :
    (∀ i, i < (splitLines formatted).length →
      ∃ w ∈ chunk_windows formatted, w.1 ≤ i ∧ i < w.2)
  ∧ (formatted.length ≤ MAX_CONTEXT_CHARS →
      chunk_transcript formatted = [(formatted, 0)])
  ∧ (MAX_CONTEXT_CHARS < formatted.length →
      chunk_transcript formatted =
        (chunk_windows formatted).map (joinChunk (splitLines formatted))) := by
  refine ⟨?_, fun h => ?_, fun h => ?_⟩
  · intro i hi
    unfold chunk_windows
    by_cases h : formatted.length ≤ MAX_CONTEXT_CHARS
    · rw [if_pos h]
      exact ⟨(0, (splitLines formatted).length), List.mem_singleton.mpr rfl,
        Nat.zero_le i, hi⟩
    · rw [if_neg h]
      exact chunkLoop_covers (splitLines formatted) (splitLines formatted).length
        0 i (by omega) (Nat.zero_le i) hi
  · unfold chunk_transcript
    rw [if_pos h]
  · unfold chunk_transcript chunk_windows
    rw [if_neg (by omega), if_neg (by omega)]

/-- Closed instance of `chunk_transcript_coverage`: the one-character
transcript is a single chunk with offset 0 whose window covers line 0, and a
30000-character transcript takes the long branch. -/

theorem chunk_transcript_coverage_witness :
    (∃ w ∈ chunk_windows ['a'], w.1 ≤ 0 ∧ 0 < w.2)
  ∧ chunk_transcript ['a'] = [(['a'], 0)]
  ∧ chunk_transcript (List.replicate 30000 'a') =
      (chunk_windows (List.replicate 30000 'a')).map
        (joinChunk (splitLines (List.replicate 30000 'a'))) :=
  ⟨(chunk_transcript_coverage ['a']).1 0 (by decide),
   (chunk_transcript_coverage ['a']).2.1 (by decide),
   (chunk_transcript_coverage (List.replicate 30000 'a')).2.2
     (by rw [List.length_replicate]; norm_num [MAX_CONTEXT_CHARS])⟩

/-- C8: every iteration of the chunking loop advances the window start by at
least one line (`max(overlap_start, start_idx + 1)`), so the loop terminates
— `chunkLoop` is a total function — and the number of chunks produced is
bounded by the number of lines. -/

theorem chunk_transcript_terminating (formatted : List Char) :
    (∀ s, s + 1 ≤ nextStart (splitLines formatted) s)
  ∧ (chunk_transcript formatted).length ≤ (splitLines formatted).length := by
  refine ⟨fun s => le_nextStart _ s, ?_⟩
  unfold chunk_transcript
  by_cases h : formatted.length ≤ MAX_CONTEXT_CHARS
  · rw [if_pos h]
    have hne := splitLines_ne_nil formatted
    have : 0 < (splitLines formatted).length := List.length_pos.mpr hne
    simpa using this
  · rw [if_neg h, List.length_map]
    have h2 := chunkLoop_length (splitLines formatted) (splitLines formatted).length
      0 (by omega)
    omega


theorem getD_mem_of_lt {α : Type} (l : List α) (n : ℕ) (d : α) (h : n < l.length) :
    l.getD n d ∈ l := by
  rw [List.getD_eq_getElem l d h]
  exact List.getElem_mem h

theorem sorted_le_getD_last {l : List ℚ} (hs : l.Pairwise (· ≤ ·)) {b : ℚ}
    (hb : b ∈ l) (d : ℚ) : b ≤ l.getD (l.length - 1) d := by
  induction l with
  | nil => cases hb
  | cons x xs ih =>
    rcases List.pairwise_cons.mp hs with ⟨hx, hxs⟩
    rcases xs with _ | ⟨y, ys⟩
    · rcases List.mem_singleton.mp hb with rfl
      exact le_refl _
    · have hstep : (x :: y :: ys).getD ((x :: y :: ys).length - 1) d
          = (y :: ys).getD ((y :: ys).length - 1) d := rfl
      rw [hstep]
      rcases List.mem_cons.mp hb with rfl | hb2
      · exact hx _ (getD_mem_of_lt _ _ _ (by simp))
      · exact ih hxs hb2

theorem sorted_getD_zero_le {l : List ℚ} (hs : l.Pairwise (· ≤ ·)) {b : ℚ}
    (hb : b ∈ l) (d : ℚ) : l.getD 0 d ≤ b := by
  rcases l with _ | ⟨x, xs⟩
  · cases hb
  · rcases List.pairwise_cons.mp hs with ⟨hx, _⟩
    rcases List.mem_cons.mp hb with rfl | hb2
    · exact le_refl _
    · exact hx _ hb2

theorem mem_dropWhile_ge {t : ℚ} {l : List ℚ} (hs : l.Pairwise (· ≤ ·)) {b : ℚ}
    (hb : b ∈ l.dropWhile (fun x => decide (x < t))) : t ≤ b := by
  induction l with
  | nil => cases hb
  | cons x xs ih =>
    rcases List.pairwise_cons.mp hs with ⟨hx, hxs⟩
    by_cases hxt : x < t
    · rw [List.dropWhile_cons, if_pos (by simpa using hxt)] at hb
      exact ih hxs hb
    · rw [List.dropWhile_cons, if_neg (by simpa using hxt)] at hb
      rcases List.mem_cons.mp hb with rfl | hb2
      · exact not_lt.mp hxt
      · exact le_trans (not_lt.mp hxt) (hx _ hb2)

/-- C4: on a sorted non-empty boundary list the nearest-boundary query
returns an element of the list whose distance to the query is minimal, with
ties resolved to the smaller boundary; a query before the first boundary
returns the first, one after the last returns the last; on an empty list the
query returns the query time itself. -/
theorem find_nearest_boundary_spec (t : ℚ) (B : List ℚ) (hne : B ≠ [])
    (hs : B.Pairwise (· ≤ ·)) :
    find_nearest_boundary t B ∈ B
  ∧ (∀ b ∈ B, |find_nearest_boundary t B - t| ≤ |b - t|)
  ∧ (∀ b ∈ B, |b - t| = |find_nearest_boundary t B - t| →
      find_nearest_boundary t B ≤ b)
  ∧ (t < B.getD 0 t → find_nearest_boundary t B = B.getD 0 t)
  ∧ (B.getD (B.length - 1) t < t →
      find_nearest_boundary t B = B.getD (B.length - 1) t)
  ∧ find_nearest_boundary t [] = t := by
  have hempty : B.isEmpty = false := by
    rcases B with _ | ⟨x, xs⟩
    · exact absurd rfl hne
    · rfl
  have hBlen : 0 < B.length := List.length_pos.mpr hne
  set P : ℚ → Bool := fun b => decide (b < t) with hP
  set L := B.takeWhile P with hL
  set R := B.dropWhile P with hR
  have hLR : L ++ R = B := List.takeWhile_append_dropWhile P B
  have hidx : bisect_left B t = L.length := rfl
  have hLlt : ∀ b ∈ L, b < t := fun b hb => by
    have := List.mem_takeWhile_imp hb
    simpa [hP] using this
  have hRge : ∀ b ∈ R, t ≤ b := fun b hb => mem_dropWhile_ge hs hb
  have hLsorted : L.Pairwise (· ≤ ·) :=
    List.Pairwise.sublist (List.takeWhile_sublist P) hs
  have hRsorted : R.Pairwise (· ≤ ·) :=
    List.Pairwise.sublist (List.dropWhile_sublist P) hs
  have hlenadd : L.length + R.length = B.length := by
    have := congrArg List.length hLR
    simpa using this
  rcases Nat.eq_zero_or_pos L.length with h0 | h0
  -- ### Case A: insertion point 0 — every boundary is ≥ t
  · have hL0 : L = [] := List.length_eq_zero.mp h0
    have hBR : R = B := by rw [← hLR, hL0, List.nil_append]
    have hge : ∀ b ∈ B, t ≤ b := fun b hb => hRge b (hBR ▸ hb)
    have hnb : find_nearest_boundary t B = B.getD 0 t := by
      unfold find_nearest_boundary
      rw [hempty, hidx, h0]
      simp
    have hnbmem : B.getD 0 t ∈ B := getD_mem_of_lt _ _ _ hBlen
    have hnbt : t ≤ B.getD 0 t := hge _ hnbmem
    have hmin : ∀ b ∈ B, B.getD 0 t ≤ b := fun b hb => sorted_getD_zero_le hs hb t
    have hlastmem : B.getD (B.length - 1) t ∈ B := getD_mem_of_lt _ _ _ (by omega)
    refine ⟨hnb ▸ hnbmem, ?_, ?_, fun _ => hnb, ?_, rfl⟩
    · intro b hb
      rw [hnb, abs_of_nonneg (by linarith), abs_of_nonneg (by linarith [hge b hb])]
      linarith [hmin b hb]
    · intro b hb _
      rw [hnb]
      exact hmin b hb
    · intro hlast
      exact absurd (hge _ hlastmem) (not_le.mpr hlast)
  rcases Nat.lt_or_ge L.length B.length with hlen | hlen
  -- ### Case C: interior insertion point — compare the straddling boundaries
  · have hRne : R ≠ [] := by
      intro hcon
      rw [hcon] at hlenadd
      simp only [List.length_nil] at hlenadd
      omega
    have hRlen : 0 < R.length := List.length_pos.mpr hRne
    have hbefore : B.getD (L.length - 1) t = L.getD (L.length - 1) t := by
      rw [← hLR]
      exact List.getD_append _ _ _ _ (by omega)
    have hafter : B.getD L.length t = R.getD 0 t := by
      rw [← hLR, List.getD_append_right _ _ _ _ (le_refl _), Nat.sub_self]
    have hbmem : B.getD (L.length - 1) t ∈ L := by
      rw [hbefore]
      exact getD_mem_of_lt _ _ _ (by omega)
    have hamem : B.getD L.length t ∈ R := by
      rw [hafter]
      exact getD_mem_of_lt _ _ _ hRlen
    have hblt : B.getD (L.length - 1) t < t := hLlt _ hbmem
    have hat : t ≤ B.getD L.length t := hRge _ hamem
    have hbmax : ∀ b ∈ L, b ≤ B.getD (L.length - 1) t := by
      intro b hb
      rw [hbefore]
      exact sorted_le_getD_last hLsorted hb t
    have hamin : ∀ b ∈ R, B.getD L.length t ≤ b := by
      intro b hb
      rw [hafter]
      exact sorted_getD_zero_le hRsorted hb t
    have hmemsplit : ∀ b ∈ B, b ∈ L ∨ b ∈ R := by
      intro b hb
      rw [← hLR] at hb
      exact List.mem_append.mp hb
    -- the first boundary is < t, so the "before the first" clause is vacuous
    have hhead : t < B.getD 0 t → False := by
      intro hcon
      have h1 : B.getD 0 t = L.getD 0 t := by
        rw [← hLR]
        exact List.getD_append _ _ _ _ (by omega)
      have h2 : B.getD 0 t ∈ L := by
        rw [h1]
        exact getD_mem_of_lt _ _ _ (by omega)
      exact absurd (hLlt _ h2) (by linarith)
    -- the last boundary is ≥ t, so the "after the last" clause is vacuous
    have hlast : B.getD (B.length - 1) t < t → False := by
      intro hcon
      have h1 : B.getD (B.length - 1) t = R.getD (R.length - 1) t := by
        rw [← hLR, List.getD_append_right _ _ _ _
          (by simp only [List.length_append]; omega)]
        congr 1
        simp only [List.length_append]
        omega
      have h2 : B.getD (B.length - 1) t ∈ R := by
        rw [h1]
        exact getD_mem_of_lt _ _ _ (by omega)
      exact absurd (hRge _ h2) (by linarith)
    have hnb : find_nearest_boundary t B =
        if t - B.getD (L.length - 1) t ≤ B.getD L.length t - t then
          B.getD (L.length - 1) t
        else B.getD L.length t := by
      unfold find_nearest_boundary
      rw [hempty, hidx]
      rw [if_neg (by simp), if_neg (by omega), if_neg (by omega)]
    by_cases hc : t - B.getD (L.length - 1) t ≤ B.getD L.length t - t
    · have hnb2 : find_nearest_boundary t B = B.getD (L.length - 1) t := by
        rw [hnb, if_pos hc]
      refine ⟨?_, ?_, ?_, fun hcon => (hhead hcon).elim,
        fun hcon => (hlast hcon).elim, rfl⟩
      · rw [hnb2]
        exact List.Sublist.mem hbmem (List.takeWhile_sublist P)
      · intro b hb
        rw [hnb2, abs_of_neg (by linarith)]
        rcases hmemsplit b hb with hbL | hbR
        · rw [abs_of_neg (by linarith [hLlt b hbL])]
          linarith [hbmax b hbL]
        · rw [abs_of_nonneg (by linarith [hRge b hbR])]
          linarith [hamin b hbR]
      · intro b hb htie
        rw [hnb2] at htie ⊢
        rcases hmemsplit b hb with hbL | hbR
        · rw [abs_of_neg (by linarith [hLlt b hbL]), abs_of_neg (by linarith)] at htie
          linarith
        · linarith [hRge b hbR]
    · have hnb2 : find_nearest_boundary t B = B.getD L.length t := by
        rw [hnb, if_neg hc]
      refine ⟨?_, ?_, ?_, fun hcon => (hhead hcon).elim,
        fun hcon => (hlast hcon).elim, rfl⟩
      · rw [hnb2]
        exact List.Sublist.mem hamem (List.dropWhile_sublist P)
      · intro b hb
        rw [hnb2, abs_of_nonneg (by linarith)]
        rcases hmemsplit b hb with hbL | hbR
        · rw [abs_of_neg (by linarith [hLlt b hbL])]
          linarith [hbmax b hbL]
        · rw [abs_of_nonneg (by linarith [hRge b hbR])]
          linarith [hamin b hbR]
      · intro b hb htie
        rw [hnb2] at htie ⊢
        rcases hmemsplit b hb with hbL | hbR
        · rw [abs_of_neg (by linarith [hLlt b hbL]),
            abs_of_nonneg (by linarith)] at htie
          linarith [hbmax b hbL]
        · linarith [hamin b hbR]
  -- ### Case B: insertion point = length — every boundary is < t
  · have hlen2 : L.length = B.length := le_antisymm
      (by rw [← hlenadd]; omega) hlen
    have hLB : L = B := (List.takeWhile_prefix P).eq_of_length hlen2
    have hall : ∀ b ∈ B, b < t := fun b hb => hLlt b (hLB ▸ hb)
    have hnb : find_nearest_boundary t B = B.getD (B.length - 1) t := by
      unfold find_nearest_boundary
      rw [hempty, hidx, hlen2]
      rw [if_neg (by simp), if_neg (by omega), if_pos rfl]
    have hgmem : B.getD (B.length - 1) t ∈ B := getD_mem_of_lt _ _ _ (by omega)
    have hglt : B.getD (B.length - 1) t < t := hall _ hgmem
    have hmax : ∀ b ∈ B, b ≤ B.getD (B.length - 1) t := fun b hb =>
      sorted_le_getD_last hs hb t
    have hheadmem : B.getD 0 t ∈ B := getD_mem_of_lt _ _ _ hBlen
    refine ⟨hnb ▸ hgmem, ?_, ?_, ?_, fun _ => hnb, rfl⟩
    · intro b hb
      rw [hnb, abs_of_neg (by linarith), abs_of_neg (by linarith [hall b hb])]
      linarith [hmax b hb]
    · intro b hb htie
      rw [hnb] at htie ⊢
      rw [abs_of_neg (by linarith [hall b hb]), abs_of_neg (by linarith)] at htie
      linarith
    · intro hcon
      exact absurd (hall _ hheadmem) (by linarith)


/-- Closed instance of `find_nearest_boundary_spec` at the spec's example
`B = [0, 10, 20, 30]`, `t = 15`. -/
theorem find_nearest_boundary_spec_witness :
    find_nearest_boundary 15 [0, 10, 20, 30] ∈ ([0, 10, 20, 30] : List ℚ) ∧
    ∀ b ∈ ([0, 10, 20, 30] : List ℚ),
      |find_nearest_boundary 15 [0, 10, 20, 30] - 15| ≤ |b - 15| :=
  ⟨(find_nearest_boundary_spec 15 [0, 10, 20, 30] (by decide) (by decide)).1,
   (find_nearest_boundary_spec 15 [0, 10, 20, 30] (by decide) (by decide)).2.1⟩

end ClipForge
